import Mathlib

set_option maxRecDepth 8000

/-!
# Verification of `collapse_deterministic` (Thresholded Bit Folding)

Shallow embedding of `src/crates/pensieve/src/lib.rs`.

Modelling conventions:
* Bytes (`u8`) are `Nat` values; arithmetic the source performs in `u8` is
  written with an explicit `% 256` (wrapping semantics, which is what the
  crate's documentation and spec describe for the `0xAA + i` mask).
* The `tolerance` parameter is `f32` in the source; it is modelled as an
  exact rational `ℚ`, with `clamp` and `ceil` exact.  All properties are
  stated at this exact-arithmetic level of description.
* Rust's `bits.chunks(chunk_size)` is modelled by `chunksOf`, a fuel-based
  structural recursion (so that concrete inputs evaluate inside the kernel).
-/

namespace Pensieve

/-- Bits of one byte, most-significant bit first:
the source pushes `(byte >> i) & 1 == 1` for `i` in `(0..8).rev()`. -/
def byteToBits (b : Nat) : List Bool :=
  (List.range 8).reverse.map (fun i => (b >>> i) &&& 1 == 1)

/-- The flat bit sequence of the input, bytes in order, MSB-first per byte. -/
def toBits (input : List Nat) : List Bool :=
  (input.map byteToBits).flatten

/-- Fuel-based worker for `chunksOf`; the fuel only needs to be at least the
length of the list. -/
def chunksOfAux (n : Nat) : Nat → List Bool → List (List Bool)
  | _, [] => []
  | 0, _ :: _ => []
  | fuel + 1, x :: xs => (x :: xs).take n :: chunksOfAux n fuel ((x :: xs).drop n)

/-- Model of Rust's `slice::chunks(n)` (meaningful for `n ≥ 1`): consecutive
chunks of `n` elements, the last chunk possibly shorter. -/
def chunksOf (n : Nat) (l : List Bool) : List (List Bool) :=
  chunksOfAux n l.length l

/-- Model of `tolerance.clamp(0.05, 0.25)`; `0.05 = 1/20`, `0.25 = 1/4`. -/
def clampTol (t : ℚ) : ℚ :=
  if t < 1/20 then 1/20 else if 1/4 < t then 1/4 else t

/-- Count of 1-bits:
the source computes `chunk.iter().map(|&b| if b { 1 } else { 0 }).sum()`. -/
def chunkOnes (chunk : List Bool) : Nat :=
  (chunk.map (fun b => if b then 1 else 0)).sum

/-- Model of `(tolerance * chunk_size as f32).ceil() as u32`
(exact-rational ceiling). -/
def chunkThreshold (t : ℚ) (chunk_size : Nat) : Nat :=
  (Int.ceil (t * (chunk_size : ℚ))).toNat

/-- Model of `let level = if sum >= threshold { 1 } else { 0 }`. -/
def chunkLevel (t : ℚ) (chunk_size : Nat) (chunk : List Bool) : Nat :=
  if chunkThreshold t chunk_size ≤ chunkOnes chunk then 1 else 0

/-- Model of `let num_chunks = if total_bits >= 128 { 8 } else { total_bits / 16 }`. -/
def numChunks (total_bits : Nat) : Nat :=
  if 128 ≤ total_bits then 8 else total_bits / 16

/-- Model of `let chunk_size = total_bits / num_chunks.max(1)`. -/
def chunkSize (total_bits : Nat) : Nat :=
  total_bits / (max (numChunks total_bits) 1)

/-- The `collapsed` vector of per-chunk levels (tolerance clamped first, as
in the source). -/
def collapsedLevels (input : List Nat) (tolerance : ℚ) : List Nat :=
  let total_bits := input.length * 8
  let tol := clampTol tolerance
  let cs := chunkSize total_bits
  (chunksOf cs (toBits input)).map (chunkLevel tol cs)

/-- Model of `fn collapse_deterministic(input: &[u8], tolerance: f32) -> Vec<u8>`.
The `collapsed[i % collapsed.len()]` access is modelled with `getD _ 0`; the
index is proved to be in range for non-empty input (safety theorem below).
`0xAA + i as u8` is u8 wrapping arithmetic, modelled as `(0xAA + i) % 256`. -/
def collapse_deterministic (input : List Nat) (tolerance : ℚ) : List Nat :=
  let total_bits := input.length * 8
  if total_bits < 8 then
    input.map (fun b => b ^^^ 0xAA)
  else
    let collapsed := collapsedLevels input tolerance
    (List.range input.length).map (fun i =>
      (collapsed.getD (i % collapsed.length) 0 * 255) ^^^ ((0xAA + i) % 256))

/-- The 16-byte input `[0xFF, 0, ..., 0]` of the crate's tests. -/
def dataFF : List Nat := 255 :: List.replicate 15 0

/-- Same as `dataFF` with the lowest bit of byte 0 flipped (`0b11111110`). -/
def dataFE : List Nat := 254 :: List.replicate 15 0

/-- Same as `dataFF` with byte 0 fully inverted (the all-zero input). -/
def dataZero : List Nat := List.replicate 16 0

/-! ## Elementary facts about the bit extraction -/

theorem byteToBits_length (b : Nat) : (byteToBits b).length = 8 := by
  simp [byteToBits]

theorem toBits_cons (b : Nat) (bs : List Nat) :
    toBits (b :: bs) = byteToBits b ++ toBits bs := by
  simp [toBits]

theorem toBits_length (input : List Nat) :
    (toBits input).length = input.length * 8 := by
  induction input with
  | nil => rfl
  | cons b bs ih =>
      rw [toBits_cons, List.length_append, byteToBits_length, ih, List.length_cons]
      ring

/-! ## Facts about the chunking -/

theorem chunksOfAux_nil (n fuel : Nat) : chunksOfAux n fuel [] = [] := by
  cases fuel <;> rfl

theorem chunksOfAux_congr (n : Nat) (hn : 1 ≤ n) :
    ∀ fuel fuel' (l : List Bool), l.length ≤ fuel → l.length ≤ fuel' →
      chunksOfAux n fuel l = chunksOfAux n fuel' l := by
  intro fuel
  induction fuel with
  | zero =>
      intro fuel' l hl hl'
      have hnil : l = [] := List.length_eq_zero.mp (Nat.le_zero.mp hl)
      subst hnil
      rw [chunksOfAux_nil, chunksOfAux_nil]
  | succ f ih =>
      intro fuel' l hl hl'
      cases l with
      | nil => rw [chunksOfAux_nil, chunksOfAux_nil]
      | cons x xs =>
          cases fuel' with
          | zero => simp at hl'
          | succ f' =>
              show (x :: xs).take n :: chunksOfAux n f ((x :: xs).drop n)
                  = (x :: xs).take n :: chunksOfAux n f' ((x :: xs).drop n)
              have hd : ((x :: xs).drop n).length ≤ f := by
                simp only [List.length_drop, List.length_cons] at hl ⊢
                omega
              have hd' : ((x :: xs).drop n).length ≤ f' := by
                simp only [List.length_drop, List.length_cons] at hl' ⊢
                omega
              rw [ih f' _ hd hd']

theorem chunksOf_nil (n : Nat) : chunksOf n [] = [] := rfl

theorem chunksOf_cons (n : Nat) (hn : 1 ≤ n) (l : List Bool) (hl : l ≠ []) :
    chunksOf n l = l.take n :: chunksOf n (l.drop n) := by
  cases l with
  | nil => exact absurd rfl hl
  | cons x xs =>
      show chunksOfAux n (xs.length + 1) (x :: xs) = _
      show (x :: xs).take n :: chunksOfAux n xs.length ((x :: xs).drop n)
          = (x :: xs).take n :: chunksOfAux n ((x :: xs).drop n).length ((x :: xs).drop n)
      have hd : ((x :: xs).drop n).length ≤ xs.length := by
        simp only [List.length_drop, List.length_cons]
        omega
      rw [chunksOfAux_congr n hn xs.length ((x :: xs).drop n).length _ hd le_rfl]

theorem chunksOfAux_flatten (n : Nat) (hn : 1 ≤ n) :
    ∀ fuel (l : List Bool), l.length ≤ fuel → (chunksOfAux n fuel l).flatten = l := by
  intro fuel
  induction fuel with
  | zero =>
      intro l hl
      have hnil : l = [] := List.length_eq_zero.mp (Nat.le_zero.mp hl)
      subst hnil
      rfl
  | succ f ih =>
      intro l hl
      cases l with
      | nil => rfl
      | cons x xs =>
          show (((x :: xs).take n :: chunksOfAux n f ((x :: xs).drop n)).flatten) = x :: xs
          rw [List.flatten_cons]
          have hd : ((x :: xs).drop n).length ≤ f := by
            simp only [List.length_drop, List.length_cons]
            simp at hl
            omega
          rw [ih _ hd, List.take_append_drop]

theorem chunksOf_flatten (n : Nat) (hn : 1 ≤ n) (l : List Bool) :
    (chunksOf n l).flatten = l :=
  chunksOfAux_flatten n hn l.length l le_rfl

theorem chunksOfAux_length (n : Nat) (hn : 1 ≤ n) :
    ∀ fuel (l : List Bool), l.length ≤ fuel →
      (chunksOfAux n fuel l).length = (l.length + n - 1) / n := by
  intro fuel
  induction fuel with
  | zero =>
      intro l hl
      have hnil : l = [] := List.length_eq_zero.mp (Nat.le_zero.mp hl)
      subst hnil
      show 0 = (0 + n - 1) / n
      rw [Nat.div_eq_of_lt (by omega)]
  | succ f ih =>
      intro l hl
      cases l with
      | nil =>
          show 0 = (0 + n - 1) / n
          rw [Nat.div_eq_of_lt (by omega)]
      | cons x xs =>
          show ((x :: xs).take n :: chunksOfAux n f ((x :: xs).drop n)).length
              = ((x :: xs).length + n - 1) / n
          have hd : ((x :: xs).drop n).length ≤ f := by
            simp only [List.length_drop, List.length_cons]
            simp at hl
            omega
          rw [List.length_cons, ih _ hd]
          simp only [List.length_drop, List.length_cons]
          rcases le_or_lt n (xs.length + 1) with hle | hlt
          · rw [show xs.length + 1 - n + n - 1 = xs.length from by omega]
            rw [show xs.length + 1 + n - 1 = xs.length + n from by omega,
              Nat.add_div_right _ (by omega)]
          · rw [show xs.length + 1 - n = 0 from by omega]
            rw [Nat.div_eq_of_lt (by omega)]
            rw [show (xs.length + 1 + n - 1) / n = 1 from
              Nat.div_eq_of_lt_le (by omega) (by omega)]

theorem chunksOf_length (n : Nat) (hn : 1 ≤ n) (l : List Bool) :
    (chunksOf n l).length = (l.length + n - 1) / n :=
  chunksOfAux_length n hn l.length l le_rfl

theorem chunksOfAux_mem (n : Nat) (hn : 1 ≤ n) :
    ∀ fuel (l : List Bool), l.length ≤ fuel →
      ∀ c ∈ chunksOfAux n fuel l, c.length ≤ n ∧ c ≠ [] := by
  intro fuel
  induction fuel with
  | zero =>
      intro l hl c hc
      have hnil : l = [] := List.length_eq_zero.mp (Nat.le_zero.mp hl)
      subst hnil
      simp [chunksOfAux_nil] at hc
  | succ f ih =>
      intro l hl c hc
      cases l with
      | nil => simp [chunksOfAux_nil] at hc
      | cons x xs =>
          have hc' : c ∈ (x :: xs).take n :: chunksOfAux n f ((x :: xs).drop n) := hc
          rcases List.mem_cons.mp hc' with h | h
          · subst h
            constructor
            · rw [List.length_take]
              omega
            · intro habs
              rcases List.take_eq_nil_iff.mp habs with h0 | h0
              · omega
              · exact List.noConfusion h0
          · have hd : ((x :: xs).drop n).length ≤ f := by
              simp only [List.length_drop, List.length_cons]
              simp at hl
              omega
            exact ih _ hd c h

theorem chunksOf_mem (n : Nat) (hn : 1 ≤ n) (l : List Bool) :
    ∀ c ∈ chunksOf n l, c.length ≤ n ∧ c ≠ [] :=
  chunksOfAux_mem n hn l.length l le_rfl

theorem chunksOfAux_getD (n : Nat) (hn : 1 ≤ n) :
    ∀ fuel (l : List Bool), l.length ≤ fuel →
      ∀ j, j + 1 < (chunksOfAux n fuel l).length →
        ((chunksOfAux n fuel l).getD j []).length = n := by
  intro fuel
  induction fuel with
  | zero =>
      intro l hl j hj
      have hnil : l = [] := List.length_eq_zero.mp (Nat.le_zero.mp hl)
      subst hnil
      rw [chunksOfAux_nil] at hj
      simp at hj
  | succ f ih =>
      intro l hl j hj
      cases l with
      | nil =>
          rw [chunksOfAux_nil] at hj
          simp at hj
      | cons x xs =>
          have hd : ((x :: xs).drop n).length ≤ f := by
            simp only [List.length_drop, List.length_cons]
            simp at hl
            omega
          have hrw : chunksOfAux n (f + 1) (x :: xs)
              = (x :: xs).take n :: chunksOfAux n f ((x :: xs).drop n) := rfl
          rw [hrw] at hj ⊢
          cases j with
          | zero =>
              rw [List.getD_cons_zero, List.length_take]
              rw [List.length_cons] at hj
              have hne : chunksOfAux n f ((x :: xs).drop n) ≠ [] := by
                intro habs
                rw [habs] at hj
                simp at hj
              have hdrop : (x :: xs).drop n ≠ [] := by
                intro habs
                rw [habs, chunksOfAux_nil] at hne
                exact hne rfl
              have hlen : n < (x :: xs).length := by
                by_contra hge
                exact hdrop (List.drop_eq_nil_iff.mpr (by omega))
              simp only [List.length_cons] at hlen ⊢
              omega
          | succ k =>
              rw [List.getD_cons_succ]
              rw [List.length_cons] at hj
              exact ih _ hd k (by omega)

theorem chunksOf_getD (n : Nat) (hn : 1 ≤ n) (l : List Bool) :
    ∀ j, j + 1 < (chunksOf n l).length → ((chunksOf n l).getD j []).length = n :=
  chunksOfAux_getD n hn l.length l le_rfl

theorem chunksOfAux_ne_nil (n fuel : Nat) (l : List Bool) (hl : l.length ≤ fuel)
    (hne : l ≠ []) : chunksOfAux n fuel l ≠ [] := by
  cases l with
  | nil => exact absurd rfl hne
  | cons x xs =>
      cases fuel with
      | zero => simp at hl
      | succ f => exact fun h => List.noConfusion h

theorem chunksOfAux_last (n : Nat) (hn : 1 ≤ n) :
    ∀ fuel (l : List Bool), l.length ≤ fuel → l ≠ [] → ¬ (n ∣ l.length) →
      ((chunksOfAux n fuel l).getD ((chunksOfAux n fuel l).length - 1) []).length
        = l.length % n := by
  intro fuel
  induction fuel with
  | zero =>
      intro l hl hne hdvd
      exact absurd (List.length_eq_zero.mp (Nat.le_zero.mp hl)) hne
  | succ f ih =>
      intro l hl hne hdvd
      cases l with
      | nil => exact absurd rfl hne
      | cons x xs =>
          have hd : ((x :: xs).drop n).length ≤ f := by
            simp only [List.length_drop, List.length_cons] at hl ⊢
            omega
          have hrw : chunksOfAux n (f + 1) (x :: xs)
              = (x :: xs).take n :: chunksOfAux n f ((x :: xs).drop n) := rfl
          rw [hrw]
          by_cases hrest : (x :: xs).drop n = []
          · rw [hrest, chunksOfAux_nil]
            have hle : (x :: xs).length ≤ n := List.drop_eq_nil_iff.mp hrest
            have hlt : (x :: xs).length < n := by
              rcases Nat.lt_or_ge (x :: xs).length n with h | h
              · exact h
              · have heq : (x :: xs).length = n := le_antisymm hle h
                exact absurd (heq ▸ dvd_refl n) hdvd
            show ((x :: xs).take n).length = (x :: xs).length % n
            rw [List.length_take, Nat.mod_eq_of_lt hlt]
            omega
          · have hlen : n < (x :: xs).length := by
              by_contra hge
              exact hrest (List.drop_eq_nil_iff.mpr (by omega))
            have hdvd' : ¬ (n ∣ ((x :: xs).drop n).length) := by
              rw [List.length_drop]
              intro habs
              apply hdvd
              have hsplit : (x :: xs).length = ((x :: xs).length - n) + n := by omega
              rw [hsplit]
              exact dvd_add habs dvd_rfl
            have hrec := ih _ hd hrest hdvd'
            have hpos : 0 < (chunksOfAux n f ((x :: xs).drop n)).length :=
              List.length_pos.mpr (chunksOfAux_ne_nil n f _ hd hrest)
            rw [List.length_cons]
            rw [show (chunksOfAux n f ((x :: xs).drop n)).length + 1 - 1
                = ((chunksOfAux n f ((x :: xs).drop n)).length - 1) + 1 from by omega]
            rw [List.getD_cons_succ]
            rw [hrec, List.length_drop, List.length_cons]
            have hm : xs.length + 1 - n + n = xs.length + 1 := by
              simp only [List.length_cons] at hlen
              omega
            calc (xs.length + 1 - n) % n
                = ((xs.length + 1 - n) + n) % n := (Nat.add_mod_right _ n).symm
              _ = (xs.length + 1) % n := by rw [hm]

theorem chunksOf_last (n : Nat) (hn : 1 ≤ n) (l : List Bool) (hne : l ≠ [])
    (hdvd : ¬ (n ∣ l.length)) :
    ((chunksOf n l).getD ((chunksOf n l).length - 1) []).length = l.length % n :=
  chunksOfAux_last n hn l.length l le_rfl hne hdvd

/-! ## Chunk sizing arithmetic -/

theorem chunkSize_of_ge16 (len : Nat) (h : 16 ≤ len) : chunkSize (len * 8) = len := by
  unfold chunkSize numChunks
  rw [if_pos (by omega)]
  rw [show max 8 1 = 8 from rfl]
  exact Nat.mul_div_cancel len (by omega)

theorem chunkSize_pos (len : Nat) (h : 1 ≤ len) : 1 ≤ chunkSize (len * 8) := by
  rcases le_or_lt 16 len with h16 | h16
  · rw [chunkSize_of_ge16 len h16]
    omega
  · interval_cases len <;> decide

theorem levels_count_le (len : Nat) (h : 1 ≤ len) :
    (len * 8 + chunkSize (len * 8) - 1) / chunkSize (len * 8) ≤ len := by
  rcases le_or_lt 16 len with h16 | h16
  · rw [chunkSize_of_ge16 len h16]
    rw [show len * 8 + len - 1 = (len - 1) + len * 8 from by omega]
    rw [Nat.add_mul_div_left _ _ (by omega), Nat.div_eq_of_lt (by omega)]
    omega
  · interval_cases len <;> decide

theorem collapsedLevels_length (input : List Nat) (t : ℚ) (h : 1 ≤ input.length) :
    (collapsedLevels input t).length
      = (input.length * 8 + chunkSize (input.length * 8) - 1)
          / chunkSize (input.length * 8) := by
  have hcs := chunkSize_pos input.length h
  simp only [collapsedLevels]
  rw [List.length_map, chunksOf_length _ hcs, toBits_length]

theorem collapsedLevels_pos (input : List Nat) (t : ℚ) (h : 1 ≤ input.length) :
    0 < (collapsedLevels input t).length := by
  rw [collapsedLevels_length input t h]
  have hcs := chunkSize_pos input.length h
  exact (Nat.one_le_div_iff hcs).mpr (by omega)

theorem collapsedLevels_le_length (input : List Nat) (t : ℚ) (h : 1 ≤ input.length) :
    (collapsedLevels input t).length ≤ input.length := by
  rw [collapsedLevels_length input t h]
  exact levels_count_le input.length h

theorem collapsedLevels_length_congr (A B : List Nat) (t u : ℚ)
    (h : A.length = B.length) :
    (collapsedLevels A t).length = (collapsedLevels B u).length := by
  rcases Nat.eq_zero_or_pos A.length with h0 | hp
  · have hA : A = [] := List.length_eq_zero.mp h0
    have hB : B = [] := List.length_eq_zero.mp (by omega)
    subst hA
    subst hB
    rfl
  · have hp' : 1 ≤ B.length := by omega
    rw [collapsedLevels_length A t hp, collapsedLevels_length B u hp', h]

/-! ## Clamping and threshold -/

theorem clampTol_ge (t : ℚ) : 1/20 ≤ clampTol t := by
  unfold clampTol
  split_ifs with h1 h2
  · exact le_refl _
  · norm_num
  · exact le_of_not_lt h1

theorem clampTol_le (t : ℚ) : clampTol t ≤ 1/4 := by
  unfold clampTol
  split_ifs with h1 h2
  · norm_num
  · exact le_refl _
  · exact le_of_not_lt h2

theorem clampTol_of_lt (t : ℚ) (h : t < 1/20) : clampTol t = 1/20 := by
  unfold clampTol
  rw [if_pos h]

theorem clampTol_of_gt (t : ℚ) (h : 1/4 < t) : clampTol t = 1/4 := by
  unfold clampTol
  rw [if_neg (by linarith), if_pos h]

theorem clampTol_low : clampTol (1/20 : ℚ) = 1/20 := by
  unfold clampTol
  rw [if_neg (by norm_num), if_neg (by norm_num)]

theorem clampTol_high : clampTol (1/4 : ℚ) = 1/4 := by
  unfold clampTol
  rw [if_neg (by norm_num), if_neg (by norm_num)]

theorem chunkThreshold_low_16 : chunkThreshold (clampTol (1/20 : ℚ)) 16 = 1 := by
  rw [clampTol_low]
  unfold chunkThreshold
  rw [show ((1 : ℚ)/20 * ((16 : Nat) : ℚ)) = 4/5 from by norm_num]
  rw [show Int.ceil ((4 : ℚ)/5) = 1 from by
    rw [Int.ceil_eq_iff]
    constructor <;> norm_num]
  rfl

theorem chunkThreshold_le_two (t : ℚ) : chunkThreshold (clampTol t) 8 ≤ 2 := by
  unfold chunkThreshold
  have h8 : clampTol t * ((8 : Nat) : ℚ) ≤ 2 := by
    have h := clampTol_le t
    rw [show ((8 : Nat) : ℚ) = 8 from by norm_num]
    nlinarith
  have hceil : Int.ceil (clampTol t * ((8 : Nat) : ℚ)) ≤ (2 : ℤ) :=
    Int.ceil_le.mpr (by exact_mod_cast h8)
  exact Int.toNat_le.mpr hceil

/-! ## Evaluation helpers -/

theorem collapsedLevels_eval (input : List Nat) (t : ℚ) (cs thr : Nat)
    (hcs : chunkSize (input.length * 8) = cs)
    (hthr : chunkThreshold (clampTol t) cs = thr) :
    collapsedLevels input t
      = (chunksOf cs (toBits input)).map
          (fun c => if thr ≤ chunkOnes c then 1 else 0) := by
  simp only [collapsedLevels, hcs]
  congr 1
  funext c
  unfold chunkLevel
  rw [hthr]

theorem collapse_eval (input : List Nat) (t : ℚ) (lv : List Nat)
    (hlen : 1 ≤ input.length)
    (hlv : collapsedLevels input t = lv) :
    collapse_deterministic input t
      = (List.range input.length).map
          (fun i => (lv.getD (i % lv.length) 0 * 255) ^^^ ((0xAA + i) % 256)) := by
  simp only [collapse_deterministic]
  rw [if_neg (show ¬ input.length * 8 < 8 from by omega)]
  simp only [hlv]

theorem getD_map_range (f : Nat → Nat) (n i : Nat) (hi : i < n) :
    ((List.range n).map f).getD i 0 = f i := by
  rw [List.getD_eq_getElem?_getD, List.getElem?_map, List.getElem?_range hi]
  rfl

theorem collapse_getD (input : List Nat) (t : ℚ) (i : Nat)
    (h : 1 ≤ input.length) (hi : i < input.length) :
    (collapse_deterministic input t).getD i 0
      = ((collapsedLevels input t).getD
            (i % (collapsedLevels input t).length) 0 * 255)
          ^^^ ((0xAA + i) % 256) := by
  rw [collapse_eval input t (collapsedLevels input t) h rfl]
  rw [getD_map_range _ input.length i hi]

theorem collapse_length (input : List Nat) (t : ℚ) :
    (collapse_deterministic input t).length = input.length := by
  simp only [collapse_deterministic]
  split
  · rw [List.length_map]
  · rw [List.length_map, List.length_range]

theorem collapsedLevels_le_one (input : List Nat) (t : ℚ) :
    ∀ x ∈ collapsedLevels input t, x ≤ 1 := by
  intro x hx
  simp only [collapsedLevels, List.mem_map] at hx
  obtain ⟨c, _, hc⟩ := hx
  rw [← hc]
  unfold chunkLevel
  split <;> omega

theorem collapsedLevels_getD_le_one (input : List Nat) (t : ℚ) (j : Nat) :
    (collapsedLevels input t).getD j 0 ≤ 1 := by
  rw [List.getD_eq_getElem?_getD]
  cases hx : (collapsedLevels input t)[j]? with
  | none => simp
  | some x =>
      have hmem := List.getElem?_mem hx
      simpa using collapsedLevels_le_one input t x hmem

theorem xor_lt_256 (a b : Nat) (ha : a < 256) (hb : b < 256) : a ^^^ b < 256 := by
  have e : (256 : Nat) = 2 ^ 8 := by norm_num
  rw [e] at ha hb ⊢
  exact Nat.bitwise_lt ha hb

theorem xor_cancel_right (a b m : Nat) (h : a ^^^ m = b ^^^ m) : a = b := by
  have h2 := congrArg (fun x => x ^^^ m) h
  simpa [Nat.xor_assoc] using h2

/-! ## Shared concrete computations (the 16-byte test vectors of the crate) -/

theorem collapse_dataFF_eq_dataFE :
    collapse_deterministic dataFF (1/20) = collapse_deterministic dataFE (1/20) := by
  rw [collapse_eval _ _ [1, 0, 0, 0, 0, 0, 0, 0] (by decide)
      (by rw [collapsedLevels_eval _ _ 16 1 (by decide) chunkThreshold_low_16]; decide)]
  rw [collapse_eval _ _ [1, 0, 0, 0, 0, 0, 0, 0] (by decide)
      (by rw [collapsedLevels_eval _ _ 16 1 (by decide) chunkThreshold_low_16]; decide)]
  rfl

theorem toBits_dataFF_ne_dataFE : toBits dataFF ≠ toBits dataFE := by decide

theorem dataFF_length_eq_dataFE : dataFF.length = dataFE.length := by decide

theorem collapse_clamp_congr (A : List Nat) (t u : ℚ) (h : clampTol t = clampTol u) :
    collapse_deterministic A t = collapse_deterministic A u := by
  simp only [collapse_deterministic, collapsedLevels, h]

theorem getD_map_chunks (f : List Bool → Nat) (l : List (List Bool)) (j : Nat)
    (hj : j < l.length) :
    (l.map f).getD j 0 = f (l.getD j []) := by
  rw [List.getD_eq_getElem?_getD, List.getElem?_map, List.getElem?_eq_getElem hj]
  rw [List.getD_eq_getElem?_getD, List.getElem?_eq_getElem hj]
  rfl

/-! ## The claims -/

/-- Claim C1: each chunk's level is 1 exactly when its count of 1-bits is
at least `ceil(clamped_tolerance * chunk_size)`, with `chunk_size` the
nominal chunk size; and when a remainder chunk exists (the nominal chunk
size does not divide the total bit count) the final chunk is strictly
shorter than the nominal chunk size, yet its level is computed against the
threshold derived from the nominal chunk size, not its own length. -/
theorem claim_C1 (input : List Nat) (t : ℚ) (h : 1 ≤ input.length) :
    collapsedLevels input t
      = (chunksOf (chunkSize (input.length * 8)) (toBits input)).map
          (fun c =>
            if (Int.ceil (clampTol t * (chunkSize (input.length * 8) : ℚ))).toNat
                ≤ chunkOnes c then 1 else 0)
  ∧ (¬ (chunkSize (input.length * 8) ∣ input.length * 8) →
      ((chunksOf (chunkSize (input.length * 8)) (toBits input)).getD
            ((chunksOf (chunkSize (input.length * 8)) (toBits input)).length - 1)
            []).length
          < chunkSize (input.length * 8)
      ∧ (collapsedLevels input t).getD ((collapsedLevels input t).length - 1) 0
          = (if (Int.ceil (clampTol t
                  * (chunkSize (input.length * 8) : ℚ))).toNat
                ≤ chunkOnes
                    ((chunksOf (chunkSize (input.length * 8)) (toBits input)).getD
                      ((chunksOf (chunkSize (input.length * 8))
                          (toBits input)).length - 1) [])
              then 1 else 0)) := by
  have hcs := chunkSize_pos input.length h
  have hbl : (toBits input).length = input.length * 8 := toBits_length input
  have heval := collapsedLevels_eval input t (chunkSize (input.length * 8))
    ((Int.ceil (clampTol t * (chunkSize (input.length * 8) : ℚ))).toNat) rfl rfl
  refine ⟨heval, ?_⟩
  intro hdvd
  have hne : toBits input ≠ [] := by
    intro habs
    have h0 : (toBits input).length = 0 := by rw [habs]; rfl
    rw [hbl] at h0
    omega
  have hlast := chunksOf_last _ hcs (toBits input) hne (by rw [hbl]; exact hdvd)
  rw [hbl] at hlast
  constructor
  · rw [hlast]
    exact Nat.mod_lt _ hcs
  · rw [heval, List.length_map]
    have hm : 0 < (chunksOf (chunkSize (input.length * 8)) (toBits input)).length :=
      List.length_pos.mpr (chunksOfAux_ne_nil _ _ _ le_rfl hne)
    exact getD_map_chunks _ _ _ (by omega)

theorem claim_C1_witness :
    ¬ (chunkSize (([1, 2, 3, 4, 5, 6, 7] : List Nat).length * 8)
        ∣ ([1, 2, 3, 4, 5, 6, 7] : List Nat).length * 8)
  ∧ ((chunksOf (chunkSize (([1, 2, 3, 4, 5, 6, 7] : List Nat).length * 8))
        (toBits [1, 2, 3, 4, 5, 6, 7])).getD
        ((chunksOf (chunkSize (([1, 2, 3, 4, 5, 6, 7] : List Nat).length * 8))
            (toBits [1, 2, 3, 4, 5, 6, 7])).length - 1) []).length
      < chunkSize (([1, 2, 3, 4, 5, 6, 7] : List Nat).length * 8) :=
  ⟨by decide, ((claim_C1 [1, 2, 3, 4, 5, 6, 7] 0 (by decide)).2 (by decide)).1⟩

/-- Claim C2: sizing and partitioning — `num_chunks` is 8 when the input
has at least 128 bits and `total_bits / 16` otherwise, `chunk_size` is
`total_bits / max(num_chunks, 1)`, the bit sequence is partitioned into
consecutive chunks of `chunk_size` bits whose concatenation restores the
bit sequence (all chunks except possibly the last have exactly
`chunk_size` bits, none has more), and the number of levels produced is
`ceil(total_bits / chunk_size)`, which can exceed `num_chunks` by one. -/
theorem claim_C2 :
    (∀ (input : List Nat) (t : ℚ), 1 ≤ input.length →
        numChunks (input.length * 8)
            = (if 128 ≤ input.length * 8 then 8 else input.length * 8 / 16)
      ∧ chunkSize (input.length * 8)
          = input.length * 8 / max (numChunks (input.length * 8)) 1
      ∧ (toBits input).length = input.length * 8
      ∧ (chunksOf (chunkSize (input.length * 8)) (toBits input)).flatten
          = toBits input
      ∧ (∀ c ∈ chunksOf (chunkSize (input.length * 8)) (toBits input),
            c.length ≤ chunkSize (input.length * 8))
      ∧ (∀ j, j + 1
            < (chunksOf (chunkSize (input.length * 8)) (toBits input)).length →
          ((chunksOf (chunkSize (input.length * 8)) (toBits input)).getD
              j []).length = chunkSize (input.length * 8))
      ∧ (collapsedLevels input t).length
          = (input.length * 8 + chunkSize (input.length * 8) - 1)
              / chunkSize (input.length * 8))
  ∧ (∃ inp : List Nat, 1 ≤ inp.length
      ∧ (collapsedLevels inp 0).length = numChunks (inp.length * 8) + 1) := by
  constructor
  · intro input t h
    have hcs := chunkSize_pos input.length h
    exact ⟨rfl, rfl, toBits_length input, chunksOf_flatten _ hcs _,
      fun c hc => (chunksOf_mem _ hcs _ c hc).1, chunksOf_getD _ hcs _,
      collapsedLevels_length input t h⟩
  · refine ⟨List.replicate 15 0, by decide, ?_⟩
    rw [collapsedLevels_length _ _ (by decide)]
    decide

theorem claim_C2_witness :
    1 ≤ ([0x55] : List Nat).length
  ∧ (toBits [0x55]).length = ([0x55] : List Nat).length * 8 :=
  ⟨by decide, (claim_C2.1 [0x55] 0 (by decide)).2.2.1⟩

/-- Claim C3: each output byte `i` equals
`collapsed[i mod len(collapsed)] * 255 XOR ((0xAA + i) mod 256)`, the
addition taken with wrapping (mod-256) semantics. -/
theorem claim_C3 (input : List Nat) (t : ℚ) (i : Nat)
    (h : 1 ≤ input.length) (hi : i < input.length) :
    (collapse_deterministic input t).getD i 0
      = ((collapsedLevels input t).getD
            (i % (collapsedLevels input t).length) 0 * 255)
          ^^^ ((0xAA + i) % 256) :=
  collapse_getD input t i h hi

theorem claim_C3_witness :
    (collapse_deterministic [0x55] 0).getD 0 0
      = ((collapsedLevels [0x55] 0).getD
            (0 % (collapsedLevels [0x55] 0).length) 0 * 255)
          ^^^ ((0xAA + 0) % 256) :=
  claim_C3 [0x55] 0 0 (by decide) (by decide)

/-- Claim C4: for equal-length inputs and a common tolerance, the outputs
coincide exactly when the per-chunk level sequences coincide; and this
equivalence is strictly coarser than equality of the raw bit sequences
(two inputs with different bit sequences can share an output). -/
theorem claim_C4 :
    (∀ (A B : List Nat) (t : ℚ), A.length = B.length →
        (collapse_deterministic A t = collapse_deterministic B t
          ↔ collapsedLevels A t = collapsedLevels B t))
  ∧ (∃ A B : List Nat, A.length = B.length ∧ toBits A ≠ toBits B
      ∧ collapse_deterministic A (1/20) = collapse_deterministic B (1/20)) := by
  constructor
  · intro A B t hAB
    rcases Nat.eq_zero_or_pos A.length with h0 | hp
    · have hA : A = [] := List.length_eq_zero.mp h0
      have hB : B = [] := List.length_eq_zero.mp (by omega)
      subst hA
      subst hB
      simp
    · have hp' : 1 ≤ B.length := by omega
      constructor
      · intro hout
        have hn := collapsedLevels_length_congr A B t t hAB
        have hposA := collapsedLevels_pos A t hp
        have hleA := collapsedLevels_le_length A t hp
        apply List.ext_getElem hn
        intro j hj1 hj2
        have hjA : j < (collapsedLevels A t).length := hj1
        have hjB : j < (collapsedLevels B t).length := hj2
        have hjlen : j < A.length := lt_of_lt_of_le hjA hleA
        have hgd : (collapse_deterministic A t).getD j 0
            = (collapse_deterministic B t).getD j 0 := by rw [hout]
        rw [collapse_getD A t j hp hjlen,
          collapse_getD B t j hp' (by omega)] at hgd
        rw [Nat.mod_eq_of_lt hjA, Nat.mod_eq_of_lt hjB] at hgd
        have hcancel := xor_cancel_right _ _ _ hgd
        have hlv := Nat.eq_of_mul_eq_mul_right (show 0 < 255 by norm_num) hcancel
        rw [List.getD_eq_getElem?_getD, List.getElem?_eq_getElem hjA] at hlv
        rw [List.getD_eq_getElem?_getD, List.getElem?_eq_getElem hjB] at hlv
        simpa using hlv
      · intro hlv
        rw [collapse_eval A t _ hp rfl, collapse_eval B t _ hp' rfl, hlv, hAB]
  · exact ⟨dataFF, dataFE, dataFF_length_eq_dataFE, toBits_dataFF_ne_dataFE,
      collapse_dataFF_eq_dataFE⟩

theorem claim_C4_witness :
    collapse_deterministic [1] 0 = collapse_deterministic [2] 0
      ↔ collapsedLevels [1] 0 = collapsedLevels [2] 0 :=
  claim_C4.1 [1] [2] 0 (by decide)

/-- Claim C5: for every input and tolerance, the output of collapse has
exactly the same length as the input; in particular the empty input yields
the empty output. -/
theorem claim_C5 :
    (∀ (input : List Nat) (t : ℚ),
        (collapse_deterministic input t).length = input.length)
  ∧ (∀ t : ℚ, collapse_deterministic [] t = []) :=
  ⟨fun input t => collapse_length input t, fun _ => rfl⟩

/-- Claim C6: collapse is total — on every non-empty input the chunking
step receives a positive chunk size, the level array indexed in the
synthesis loop is non-empty (so the index `i % len` is always in range),
and every output byte is a well-defined u8 value (`< 256`; the `0xAA + i`
mask is wrapping mod-256 arithmetic for every output index `i`). -/
theorem claim_C6 (input : List Nat) (t : ℚ) (h : 1 ≤ input.length) :
    1 ≤ chunkSize (input.length * 8)
  ∧ 0 < (collapsedLevels input t).length
  ∧ (∀ i : Nat, i % (collapsedLevels input t).length
        < (collapsedLevels input t).length)
  ∧ (∀ b ∈ collapse_deterministic input t, b < 256) := by
  refine ⟨chunkSize_pos input.length h, collapsedLevels_pos input t h,
    fun i => Nat.mod_lt i (collapsedLevels_pos input t h), ?_⟩
  intro b hb
  rw [collapse_eval input t (collapsedLevels input t) h rfl] at hb
  rw [List.mem_map] at hb
  obtain ⟨i, _, hbi⟩ := hb
  rw [← hbi]
  apply xor_lt_256
  · have hone := collapsedLevels_getD_le_one input t
      (i % (collapsedLevels input t).length)
    have hm := Nat.mul_le_mul_right 255 hone
    omega
  · exact Nat.mod_lt _ (by omega)

theorem claim_C6_witness :
    1 ≤ chunkSize (([0x55] : List Nat).length * 8)
  ∧ 0 < (collapsedLevels [0x55] (0 : ℚ)).length
  ∧ (∀ i : Nat, i % (collapsedLevels [0x55] (0 : ℚ)).length
        < (collapsedLevels [0x55] (0 : ℚ)).length)
  ∧ (∀ b ∈ collapse_deterministic [0x55] (0 : ℚ), b < 256) :=
  claim_C6 [0x55] 0 (by decide)

/-- Claim C7: tolerance clamping — any tolerance below `0.05 = 1/20`
behaves exactly like `1/20`, and any tolerance above `0.25 = 1/4` behaves
exactly like `1/4`. -/
theorem claim_C7 (A : List Nat) (t : ℚ) :
    (t < 1/20 → collapse_deterministic A t = collapse_deterministic A (1/20))
  ∧ (1/4 < t → collapse_deterministic A t = collapse_deterministic A (1/4)) :=
  ⟨fun h => collapse_clamp_congr A t _ (by rw [clampTol_of_lt t h, clampTol_low]),
   fun h => collapse_clamp_congr A t _ (by rw [clampTol_of_gt t h, clampTol_high])⟩

theorem claim_C7_witness :
    collapse_deterministic [0x55] 0 = collapse_deterministic [0x55] (1/20)
  ∧ collapse_deterministic [0x55] 1 = collapse_deterministic [0x55] (1/4) :=
  ⟨(claim_C7 [0x55] 0).1 (by norm_num), (claim_C7 [0x55] 1).2 (by norm_num)⟩

/-- Claim C8: on the 16-byte input `A = [0xFF, 0, ..., 0]` and its variant
`B` with byte 0 = `0b11111110`, at tolerance `0.05` the outputs coincide:
the per-chunk threshold is `ceil(0.05 * 16) = 1`, and chunk 0's ones-count
drops from 8 to 7, still at least 1, so no level changes. -/
theorem claim_C8 :
    chunkThreshold (clampTol (1/20 : ℚ)) 16 = 1
  ∧ chunkOnes ((chunksOf 16 (toBits dataFF)).getD 0 []) = 8
  ∧ chunkOnes ((chunksOf 16 (toBits dataFE)).getD 0 []) = 7
  ∧ collapse_deterministic dataFF (1/20) = collapse_deterministic dataFE (1/20) :=
  ⟨chunkThreshold_low_16, by decide, by decide, collapse_dataFF_eq_dataFE⟩

/-- Claim C9: on the same input `A` and the variant with byte 0 fully
inverted (the all-zero 16-byte input), at tolerance `0.05` the outputs
differ: chunk 0's ones-count drops from 8 to 0, below the threshold 1, so
its level flips from 1 to 0. -/
theorem claim_C9 :
    chunkOnes ((chunksOf 16 (toBits dataZero)).getD 0 []) = 0
  ∧ (collapsedLevels dataFF (1/20)).getD 0 0 = 1
  ∧ (collapsedLevels dataZero (1/20)).getD 0 0 = 0
  ∧ collapse_deterministic dataFF (1/20)
      ≠ collapse_deterministic dataZero (1/20) := by
  have hFF : collapsedLevels dataFF (1/20) = [1, 0, 0, 0, 0, 0, 0, 0] := by
    rw [collapsedLevels_eval _ _ 16 1 (by decide) chunkThreshold_low_16]
    decide
  have hZ : collapsedLevels dataZero (1/20) = [0, 0, 0, 0, 0, 0, 0, 0] := by
    rw [collapsedLevels_eval _ _ 16 1 (by decide) chunkThreshold_low_16]
    decide
  refine ⟨by decide, by rw [hFF]; rfl, by rw [hZ]; rfl, ?_⟩
  rw [collapse_eval _ _ _ (by decide) hFF, collapse_eval _ _ _ (by decide) hZ]
  decide

/-- Claim C10: the single-byte input `[0x55]` is a fixed point of collapse
at every tolerance: the single 8-bit chunk has 4 one-bits, the threshold
`ceil(clamped_t * 8)` is at most 2, so the level is 1 and the output byte
is `255 XOR 0xAA = 0x55`.  Hence the position-dependent XOR does not make
every output differ from its input. -/
theorem claim_C10 (t : ℚ) : collapse_deterministic [0x55] t = [0x55] := by
  have hthr := chunkThreshold_le_two t
  have hlv : collapsedLevels [0x55] t = [1] := by
    rw [collapsedLevels_eval [0x55] t 8 (chunkThreshold (clampTol t) 8)
      (by decide) rfl]
    rw [show chunksOf 8 (toBits [0x55]) = [toBits [0x55]] from by decide]
    rw [List.map_cons, List.map_nil]
    rw [show chunkOnes (toBits [0x55]) = 4 from by decide]
    rw [if_pos (by omega)]
  rw [collapse_eval [0x55] t [1] (by decide) hlv]
  decide

end Pensieve
